import Mathlib

/-!
Shallow embedding of the whale-flow analytics engine of
`api/app/clients/tools/structured/Hyperliquid.js`, together with proofs of the
behavioural claims about it.

Modelling conventions, used throughout:

* JS numbers are modelled as exact rationals (`ℚ`); floating-point rounding is
  out of scope.
* A JS object used as a string-keyed map is modelled as an insertion-ordered
  association list `List (String × α)`.  Property read `m[k]` is `jsGet`
  (`none` plays the role of `undefined`); property write `m[k] = f(m[k])` is
  `upsertWith` (writing an existing key keeps its position, a new key is
  appended — exactly JS object insertion order).
* `Array.prototype.sort cmp` (stable under ES2019, which the runtime
  implements) is modelled by `jsSortWith before`, a stable insertion sort in
  which `before y x` means "the comparator called on `(y, x)` returned a
  negative number"; a comparator returning `NaN` is treated by the JS spec as
  "no reordering", i.e. `before = false` in both directions.
* The currency formatter `big$` (two fraction digits) composed with the
  numeric re-parse `+s.replace(/,/g,'')` that the source applies to such
  strings is modelled by `fmt2`, rounding to two decimal places.  Fields that
  the source stores as `big$`-formatted strings are modelled by the rational
  value the re-parse would recover.
* `String.prototype.startsWith` / `String.prototype.includes` are re-implemented
  over character lists (`strStarts` / `strHas`) so that they compute by kernel
  reduction.
-/

-- ──────────────────────────────────────────────────────────────────────
-- String helpers
-- ──────────────────────────────────────────────────────────────────────

/-- Does the first character list start with the second? -/
def chStarts : List Char → List Char → Bool
  | _, [] => true
  | [], _ :: _ => false
  | c :: s, p :: ps => c == p && chStarts s ps

/-- Does the first character list contain the second as a contiguous block? -/
def chContains : List Char → List Char → Bool
  | [], pat => pat.isEmpty
  | c :: rest, pat => chStarts (c :: rest) pat || chContains rest pat

/-- Model of JS `String.prototype.startsWith`. -/
def strStarts (s p : String) : Bool := chStarts s.data p.data

/-- Model of JS `String.prototype.includes`. -/
def strHas (s p : String) : Bool := chContains s.data p.data

-- ──────────────────────────────────────────────────────────────────────
-- JS objects as insertion-ordered association lists
-- ──────────────────────────────────────────────────────────────────────

/-- JS property read `m[k]`; `none` plays the role of `undefined`. -/
def jsGet {α : Type} (m : List (String × α)) (k : String) : Option α :=
  (m.find? (fun e => e.1 == k)).map (·.2)

/-- JS property write `m[k] = f(m[k])`: an existing key keeps its position in
    the enumeration order, a new key is appended. -/
def upsertWith {α : Type} (m : List (String × α)) (k : String) (f : Option α → α) :
    List (String × α) :=
  match m with
  | [] => [(k, f none)]
  | (k', v) :: rest =>
    if k' == k then (k', f (some v)) :: rest else (k', v) :: upsertWith rest k f

/-- `Object.keys`. -/
def keysOf {α : Type} (m : List (String × α)) : List String := m.map (·.1)

/-- JS truthiness of a possibly-undefined number (`undefined` and `0` are falsy). -/
def truthyQ : Option ℚ → Bool
  | none => false
  | some v => v != 0

/-- JS `new Set(list)` keeps the first occurrence of each element, in order. -/
def firstDedup (l : List String) : List String :=
  l.foldl (fun acc a => if a ∈ acc then acc else acc ++ [a]) []

-- ──────────────────────────────────────────────────────────────────────
-- Array.prototype.sort (stable) with a JS comparator
-- ──────────────────────────────────────────────────────────────────────

/-- Insert `x` after every element the comparator places strictly before it. -/
def jsInsert {α : Type} (before : α → α → Bool) (x : α) : List α → List α
  | [] => [x]
  | y :: ys => if before y x then y :: jsInsert before x ys else x :: y :: ys

/-- Stable sort: `before y x` = "comparator `(y, x)` returned a negative number". -/
def jsSortWith {α : Type} (before : α → α → Bool) : List α → List α
  | [] => []
  | x :: xs => jsInsert before x (jsSortWith before xs)

/-- `before` relation of a comparator of the shape `(a, b) => key(b) - key(a)`
    (descending by `key`), the shape used by every working sort in the source. -/
def keyBefore {α : Type} (key : α → ℚ) (y x : α) : Bool := decide (key x < key y)

/-- Models `big$` (format with exactly two fraction digits) composed with the
    numeric re-parse `+s.replace(/,/g,'')` that the source applies to such
    formatted strings: rounding to two decimal places. -/
def fmt2 (x : ℚ) : ℚ := (⌊x * 100 + 1 / 2⌋ : ℚ) / 100

-- ──────────────────────────────────────────────────────────────────────
-- Fills and the shared sign convention (§4.2 of the spec)
-- ──────────────────────────────────────────────────────────────────────

/-- One executed trade event as consumed by the detectors
    (fields `f.coin`, `f.dir`, `f.sz`, `f.px` of an upstream fill record). -/
structure Fill where
  coin : String
  dir : String
  sz : ℚ
  px : ℚ
deriving DecidableEq

inductive FillAct
  | Open
  | Close
deriving DecidableEq

inductive FillSide
  | Long
  | Short
deriving DecidableEq

/-- Direction string of a fill with a definite action and side: the action word
    followed by the side word, as the exchange emits them. -/
def dirString : FillAct → FillSide → String
  | .Open, .Long => "Open Long"
  | .Open, .Short => "Open Short"
  | .Close, .Long => "Close Long"
  | .Close, .Short => "Close Short"

/-- Sign given to a fill's notional, computed identically in `runFlowSweep`,
    `runTrendBias`, `runCompressionRadar` and `runOpenInterestPulse`:
    `f.dir.includes("Long") ? (f.dir.startsWith("Close") ? -1 : +1)
                            : (f.dir.startsWith("Close") ? +1 : -1)`. -/
def fillSign (dir : String) : ℚ :=
  if strHas dir "Long" then (if strStarts dir "Close" then -1 else 1)
  else (if strStarts dir "Close" then 1 else -1)

/-- `n * sign` with `n = Math.abs(+f.sz) * +f.px`: the signed notional one fill
    adds to every net-notional accumulator. -/
def signedContribution (f : Fill) : ℚ := |f.sz| * f.px * fillSign f.dir

-- ──────────────────────────────────────────────────────────────────────
-- runFlowSweep step 2: aggregate by coin
-- ──────────────────────────────────────────────────────────────────────

/-- Per-coin accumulator of `runFlowSweep`: `{ net, wallets }`. -/
structure CoinAgg where
  net : ℚ
  wallets : List (String × ℚ)
deriving DecidableEq

/-- One wallet's fetched fill list (`{ addr, fills }` in the source). -/
structure WalletFills where
  addr : String
  fills : List Fill
deriving DecidableEq

/-- One fill folded into the `runFlowSweep` aggregate:
    `agg[f.coin].net += n*sign; agg[f.coin].wallets[r.addr] += n*sign`. -/
def flowStep (agg : List (String × CoinAgg)) (addr : String) (f : Fill) :
    List (String × CoinAgg) :=
  upsertWith agg f.coin (fun o =>
    let c := o.getD { net := 0, wallets := [] }
    { net := c.net + signedContribution f,
      wallets := upsertWith c.wallets addr (fun w => w.getD 0 + signedContribution f) })

/-- `runFlowSweep` step 2: fold every wallet's fills into the shared aggregate. -/
def flowAgg (resp : List WalletFills) : List (String × CoinAgg) :=
  resp.foldl (fun agg r => r.fills.foldl (fun a f => flowStep a r.addr f) agg) []

-- ──────────────────────────────────────────────────────────────────────
-- runTrendBias step 2 (same two-pass shape as runCompressionRadar and
-- runOpenInterestPulse): per-wallet per-coin deltas, then merge
-- ──────────────────────────────────────────────────────────────────────

/-- Per-coin accumulator of `runTrendBias`: `{ net, wallets:Set, details:{} }`. -/
structure TrendCoin where
  net : ℚ
  wallets : List String
  details : List (String × ℚ)
deriving DecidableEq

/-- JS `Set.prototype.add` on an insertion-ordered representation. -/
def setAdd (s : List String) (a : String) : List String :=
  if a ∈ s then s else s ++ [a]

/-- First pass for one wallet: `perCoin[f.coin] = (perCoin[f.coin] || 0) + n * sign`. -/
def perCoinNet (fills : List Fill) : List (String × ℚ) :=
  fills.foldl (fun pc f => upsertWith pc f.coin (fun o => o.getD 0 + signedContribution f)) []

/-- Second pass for one wallet: merge its per-coin deltas into the aggregate
    (`net += delta; wallets.add(addr); details[addr] = delta`). -/
def trendMerge (agg : List (String × TrendCoin)) (addr : String)
    (perCoin : List (String × ℚ)) : List (String × TrendCoin) :=
  perCoin.foldl (fun a2 cd =>
    upsertWith a2 cd.1 (fun o =>
      let c := o.getD { net := 0, wallets := [], details := [] }
      { net := c.net + cd.2,
        wallets := setAdd c.wallets addr,
        details := upsertWith c.details addr (fun _ => cd.2) })) agg

/-- `runTrendBias` step 2 over all wallets. -/
def trendAgg (resp : List WalletFills) : List (String × TrendCoin) :=
  resp.foldl (fun agg r => trendMerge agg r.addr (perCoinNet r.fills)) []

-- ──────────────────────────────────────────────────────────────────────
-- runFlowSweep step 3: filter, shape, and the (broken) ranking sort
-- ──────────────────────────────────────────────────────────────────────

/-- One output row of `runFlowSweep`.  Note that the row carries `netNotional`
    (a `big$`-formatted magnitude in the source, modelled by its re-parsed
    value) — it has NO property called `net`. -/
structure FlowRow where
  coin : String
  netNotional : ℚ
  side : String
  walletCount : ℕ
  topWallets : List (String × ℚ)
deriving DecidableEq

/-- Reading `row.net` on a `FlowRow`: the property does not exist on the rows
    built by the `.map` one line above the `.sort` in the source, so the JS
    read yields `undefined`. -/
def FlowRow.netProp (_ : FlowRow) : Option ℚ := none

/-- `Math.abs` on a possibly-undefined number (`Math.abs(undefined)` is `NaN`,
    modelled by `none`). -/
def jsAbsU : Option ℚ → Option ℚ
  | none => none
  | some v => some |v|

/-- Subtraction on possibly-NaN numbers (`NaN` propagates). -/
def jsSubU : Option ℚ → Option ℚ → Option ℚ
  | some a, some b => some (a - b)
  | _, _ => none

/-- Is a possibly-NaN comparator result negative?  (`NaN < 0` is false, so a
    `NaN` comparator result means "keep the relative order".) -/
def jsNegU : Option ℚ → Bool
  | some v => decide (v < 0)
  | none => false

/-- The `runFlowSweep` comparator `(a, b) => Math.abs(b.net) - Math.abs(a.net)`
    evaluated on `(y, x)`: `y` is placed before `x` iff the result is negative.
    Both `.net` reads yield `undefined`, so the comparator always returns `NaN`. -/
def flowRowBefore (y x : FlowRow) : Bool :=
  jsNegU (jsSubU (jsAbsU x.netProp) (jsAbsU y.netProp))

/-- The row built for one aggregate entry by `runFlowSweep` step 3. -/
def mkFlowRow (e : String × CoinAgg) : FlowRow :=
  { coin := e.1 ++ "-PERP",
    netNotional := fmt2 |e.2.net|,
    side := if 0 < e.2.net then "net long" else "net short",
    walletCount := e.2.wallets.length,
    topWallets :=
      ((jsSortWith (keyBefore (fun w => |w.2|)) e.2.wallets).take 3).map
        (fun w => (w.1, fmt2 w.2)) }

/-- `runFlowSweep`: aggregate, keep coins with `|net| ≥ minNotional`, shape the
    rows, then apply the source's `.sort((a,b) => Math.abs(b.net) - Math.abs(a.net))`. -/
def runFlowSweep (resp : List WalletFills) (minNotional : ℚ) : List FlowRow :=
  jsSortWith flowRowBefore
    (((flowAgg resp).filter (fun e => decide (minNotional ≤ |e.2.net|))).map mkFlowRow)

-- ──────────────────────────────────────────────────────────────────────
-- hlPost: the retry wrapper of the fetch gateway
-- ──────────────────────────────────────────────────────────────────────

/-- The shape of an axios failure as far as `hlPost` inspects it:
    `e.response?.status` and `e.code`. -/
structure JsError where
  status : Option ℕ
  code : Option String
deriving DecidableEq

/-- `e.response?.status === 429 || e.code === "ECONNABORTED"`. -/
def shouldBackoff (e : JsError) : Bool :=
  e.status == some 429 || e.code == some "ECONNABORTED"

deriving instance DecidableEq for Except

/-- Observable outcome of one `hlPost` call: the value returned or error thrown
    (`none` models the `undefined` fall-through of an exhausted loop, which is
    unreachable for positive `retries`), how many axios attempts were issued,
    and the backoff sleeps performed, in order. -/
structure HlTrace (α : Type) where
  result : Option (Except JsError α)
  attemptsMade : ℕ
  sleepsMs : List ℕ
deriving DecidableEq

/-- The retry loop of `hlPost`: `attempt i` is the outcome of the `i`-th axios
    call, `r` the remaining iterations, the list the sleeps performed so far.
    On failure the error is rethrown only at the last iteration; otherwise the
    loop continues, sleeping `500 * (i + 1)` ms only for rate-limit (429) or
    timeout (`ECONNABORTED`) failures. -/
def hlPostGo {α : Type} (attempt : ℕ → Except JsError α) :
    ℕ → ℕ → List ℕ → HlTrace α
  | i, 0, sleeps => { result := none, attemptsMade := i, sleepsMs := sleeps }
  | i, r + 1, sleeps =>
    match attempt i with
    | .ok v => { result := some (.ok v), attemptsMade := i + 1, sleepsMs := sleeps }
    | .error e =>
      if r = 0 then { result := some (.error e), attemptsMade := i + 1, sleepsMs := sleeps }
      else if shouldBackoff e then hlPostGo attempt (i + 1) r (sleeps ++ [500 * (i + 1)])
      else hlPostGo attempt (i + 1) r sleeps

/-- `hlPost(body, retries)`; every call site uses the default `retries = 3`. -/
def hlPost {α : Type} (attempt : ℕ → Except JsError α) (retries : ℕ) : HlTrace α :=
  hlPostGo attempt 0 retries []

-- ──────────────────────────────────────────────────────────────────────
-- fetchLiquidations / aggregateLiquidations / runLiquidationSweep
-- ──────────────────────────────────────────────────────────────────────

/-- One raw liquidation event (`ev.coin`, `ev.side`, `ev.sz`, `ev.px`);
    `side = "long"` means long positions were liquidated. -/
structure LiqEvent where
  coin : String
  side : String
  sz : ℚ
  px : ℚ
deriving DecidableEq

/-- Per-coin liquidation totals `{ longs, shorts }` in notional USD. -/
structure LiqTotals where
  longs : ℚ
  shorts : ℚ
deriving DecidableEq

/-- `fetchLiquidations`: the events of the query response, except that an
    HTTP 422 ("unprocessable") failure is mapped to "no events" instead of
    propagating. -/
def fetchLiquidations (resp : Except JsError (List LiqEvent)) :
    Except JsError (List LiqEvent) :=
  match resp with
  | .ok evs => .ok evs
  | .error e => if e.status == some 422 then .ok [] else .error e

/-- The summing loop of `aggregateLiquidations`:
    `out[coin][side === "long" ? "longs" : "shorts"] += |sz| * px`. -/
def liqFold (events : List LiqEvent) : List (String × LiqTotals) :=
  events.foldl (fun out ev =>
    upsertWith out ev.coin (fun o =>
      let s := o.getD { longs := 0, shorts := 0 }
      if ev.side == "long" then { s with longs := s.longs + |ev.sz| * ev.px }
      else { s with shorts := s.shorts + |ev.sz| * ev.px })) []

/-- `aggregateLiquidations`: fetch (with the 422 special case), then sum by
    coin and liquidated side. -/
def aggregateLiquidations (resp : Except JsError (List LiqEvent)) :
    Except JsError (List (String × LiqTotals)) :=
  (fetchLiquidations resp).map liqFold

/-- One output row of `runLiquidationSweep`; `longLiq` / `shortLiq` are
    `big$`-formatted in the source and modelled by their re-parsed values. -/
structure LiqRow where
  coin : String
  longLiq : ℚ
  shortLiq : ℚ
deriving DecidableEq

/-- The row built for one aggregate entry by `runLiquidationSweep`. -/
def mkLiqRow (e : String × LiqTotals) : LiqRow :=
  { coin := e.1 ++ "-PERP", longLiq := fmt2 e.2.longs, shortLiq := fmt2 e.2.shorts }

/-- Sort key of the `runLiquidationSweep` comparator: the larger of the two
    (re-parsed) formatted totals of a row. -/
def liqRowKey (r : LiqRow) : ℚ := max r.longLiq r.shortLiq

/-- `runLiquidationSweep` on an already-built liquidation aggregate: shape the
    rows, then sort descending by `max(longLiq, shortLiq)` (the comparator
    re-parses the formatted fields of the rows themselves). -/
def runLiquidationSweep (liqAgg : List (String × LiqTotals)) : List LiqRow :=
  jsSortWith (keyBefore liqRowKey) (liqAgg.map mkLiqRow)

-- ──────────────────────────────────────────────────────────────────────
-- runDivergence
-- ──────────────────────────────────────────────────────────────────────

/-- Per-coin book of `runDivergence`: `{ closers:{}, builders:{}, side }`. -/
structure DivBook where
  closers : List (String × ℚ)
  builders : List (String × ℚ)
  side : String
deriving DecidableEq

/-- One fill folded into the divergence book: `Close*` fills feed `closers`,
    `Open*` fills feed `builders`, anything else is skipped; `side` is
    overwritten with the fill's side word each time. -/
def divStep (book : List (String × DivBook)) (addr : String) (f : Fill) :
    List (String × DivBook) :=
  let n := |f.sz| * f.px
  let sideW := if strHas f.dir "Long" then "long" else "short"
  if strStarts f.dir "Close" then
    upsertWith book f.coin (fun o =>
      let c := o.getD { closers := [], builders := [], side := "" }
      { c with closers := upsertWith c.closers addr (fun w => w.getD 0 + n),
               side := sideW })
  else if strStarts f.dir "Open" then
    upsertWith book f.coin (fun o =>
      let c := o.getD { closers := [], builders := [], side := "" }
      { c with builders := upsertWith c.builders addr (fun w => w.getD 0 + n),
               side := sideW })
  else book

/-- `runDivergence` step 2 over all wallets. -/
def divBook (resp : List WalletFills) : List (String × DivBook) :=
  resp.foldl (fun b r => r.fills.foldl (fun b2 f => divStep b2 r.addr f) b) []

/-- `cAddrs`: closer entries with at least `closeNotional` closed. -/
def divQualifyingClosers (d : DivBook) (closeNotional : ℚ) : List (String × ℚ) :=
  d.closers.filter (fun e => decide (closeNotional ≤ e.2))

/-- `bAddrs`: builder entries with at least `buildNotional` opened, that are
    "different wallets": `filter(([addr]) => !data.closers[addr])`, a JS
    truthiness test on the closer total of the same coin's book. -/
def divQualifyingBuilders (d : DivBook) (buildNotional : ℚ) : List (String × ℚ) :=
  (d.builders.filter (fun e => decide (buildNotional ≤ e.2))).filter
    (fun e => !truthyQ (jsGet d.closers e.1))

/-- One side of a `runDivergence` result: wallet count, `big$`-formatted total
    (modelled re-parsed), and the top-3 entries by value descending. -/
structure DivSideSummary where
  walletCount : ℕ
  notional : ℚ
  top : List (String × ℚ)
deriving DecidableEq

def mkDivSummary (entries : List (String × ℚ)) : DivSideSummary :=
  { walletCount := entries.length,
    notional := fmt2 ((entries.map (·.2)).sum),
    top := ((jsSortWith (keyBefore (·.2)) entries).take 3).map (fun e => (e.1, fmt2 e.2)) }

structure DivResult where
  coin : String
  side : String
  closers : DivSideSummary
  builders : DivSideSummary
deriving DecidableEq

structure DivParams where
  closeNotional : ℚ
  buildNotional : ℚ
  minClosers : ℕ
  minBuilders : ℕ
deriving DecidableEq

/-- `runDivergence` step 3: return the first coin (in book enumeration order)
    meeting both thresholds; `none` models the `no-divergence` sentinel. -/
def divScan (p : DivParams) : List (String × DivBook) → Option DivResult
  | [] => none
  | (coin, d) :: rest =>
    let cAddrs := divQualifyingClosers d p.closeNotional
    let bAddrs := divQualifyingBuilders d p.buildNotional
    if p.minClosers ≤ cAddrs.length ∧ p.minBuilders ≤ bAddrs.length then
      some { coin := coin ++ "-PERP", side := d.side,
             closers := mkDivSummary cAddrs, builders := mkDivSummary bAddrs }
    else divScan p rest

def runDivergence (resp : List WalletFills) (p : DivParams) : Option DivResult :=
  divScan p (divBook resp)

-- ──────────────────────────────────────────────────────────────────────
-- runPositionDeltaPulse
-- ──────────────────────────────────────────────────────────────────────

/-- One entry of `clearinghouseState.assetPositions` as far as the detector
    reads it (`position.coin`, `position.szi`, `position.entryPx`,
    `position.liquidationPx`). -/
structure PerpPosition where
  coin : String
  szi : ℚ
  entryPx : ℚ
  liquidationPx : ℚ
deriving DecidableEq

/-- Snapshot entry of `openNow`: `{ side, sizeUsd, entry, liqPx }`. -/
structure PosState where
  side : String
  sizeUsd : ℚ
  entry : ℚ
  liqPx : ℚ
deriving DecidableEq

/-- The `openNow` snapshot: zero-size positions are skipped, later entries for
    the same coin overwrite earlier ones. -/
def openNowOf (positions : List PerpPosition) : List (String × PosState) :=
  positions.foldl (fun m pos =>
    if pos.szi == 0 then m
    else upsertWith m pos.coin (fun _ =>
      { side := if (0 : ℚ) < pos.szi then "long" else "short",
        sizeUsd := |pos.szi| * pos.entryPx,
        entry := pos.entryPx,
        liqPx := pos.liquidationPx })) []

/-- Per-coin `{ longUsd, shortUsd }` totals. -/
structure SideUsd where
  longUsd : ℚ
  shortUsd : ℚ
deriving DecidableEq

/-- The `bump` helper: add `usd` to the long or short field of `table[coin]`,
    creating the entry with zeros when absent. -/
def bump (table : List (String × SideUsd)) (coin : String) (isLong : Bool) (usd : ℚ) :
    List (String × SideUsd) :=
  upsertWith table coin (fun o =>
    let t := o.getD { longUsd := 0, shortUsd := 0 }
    if isLong then { t with longUsd := t.longUsd + usd }
    else { t with shortUsd := t.shortUsd + usd })

/-- USD opened and closed per coin and side in the window:
    `Open*` fills bump `opened`, `Close*` fills bump `closed`. -/
def openedClosedStep (tc : List (String × SideUsd) × List (String × SideUsd)) (f : Fill) :
    List (String × SideUsd) × List (String × SideUsd) :=
  let usd := |f.sz| * f.px
  let isLong := strHas f.dir "Long"
  let opened := if strStarts f.dir "Open" then bump tc.1 f.coin isLong usd else tc.1
  let closed := if strStarts f.dir "Close" then bump tc.2 f.coin isLong usd else tc.2
  (opened, closed)

def openedClosedOf (fills : List Fill) :
    List (String × SideUsd) × List (String × SideUsd) :=
  fills.foldl openedClosedStep ([], [])

/-- `opened[coin]?.longUsd || 0` and friends. -/
def getSideUsd (t : List (String × SideUsd)) (coin : String) : SideUsd :=
  (jsGet t coin).getD { longUsd := 0, shortUsd := 0 }

structure PdpParams where
  trimUsd : ℚ
  addUsd : ℚ
  newUsd : ℚ
  maxHits : Option ℕ
deriving DecidableEq

/-- One classified event pushed to `results`.  `sizeUsd` models the formatted
    string (`big$(state.sizeUsd)` or the literal `"0.00"`); `avgEntry` and
    `liqPx` are `none` when the source emits the placeholder dash. -/
structure PdpEvent where
  wallet : String
  action : String
  coin : String
  side : String
  sizeUsd : ℚ
  avgEntry : Option ℚ
  liqPx : Option ℚ
deriving DecidableEq

/-- The classification of one coin for one wallet: `reduced` / `added` /
    `opened`, with the priority order of the source's conditional expression;
    `none` when no threshold fires and nothing is pushed. -/
def pdpEval (addr : String) (openNow : List (String × PosState))
    (opened closed : List (String × SideUsd)) (p : PdpParams) (coin : String) :
    Option PdpEvent :=
  let state := jsGet openNow coin
  let sideNow := state.map (·.side)
  let o := getSideUsd opened coin
  let c := getSideUsd closed coin
  let reduced :=
    (sideNow == some "long" && decide (p.trimUsd ≤ c.longUsd)) ||
    (sideNow == some "short" && decide (p.trimUsd ≤ c.shortUsd)) ||
    (state.isNone && decide (p.trimUsd ≤ c.longUsd + c.shortUsd))
  let added := state.isSome &&
    ((sideNow == some "long" && decide (p.addUsd ≤ o.longUsd)) ||
     (sideNow == some "short" && decide (p.addUsd ≤ o.shortUsd)))
  let openedFresh := state.isNone && decide (p.newUsd ≤ o.longUsd + o.shortUsd)
  if reduced || added || openedFresh then
    some { wallet := addr,
           action := if reduced then "reduced" else if added then "added" else "opened",
           coin := coin ++ "-PERP",
           side := match state with
                   | some st => st.side
                   | none => if 0 < o.longUsd then "long" else "short",
           sizeUsd := match state with
                      | some st => fmt2 st.sizeUsd
                      | none => 0,
           avgEntry := state.map (fun st => fmt2 st.entry),
           liqPx := state.map (fun st => fmt2 st.liqPx) }
  else none

/-- `results.length >= maxHits`, where `maxHits` defaults to `Infinity`
    (modelled by `none`: never reached). -/
def maxHitsReached (maxHits : Option ℕ) (len : ℕ) : Bool :=
  match maxHits with
  | none => false
  | some m => decide (m ≤ len)

/-- The inner loop over `allCoins` for one wallet; the `Bool` is true when the
    early `return results` (maxHits reached) fired. -/
def pdpCoinLoop (addr : String) (openNow : List (String × PosState))
    (opened closed : List (String × SideUsd)) (p : PdpParams) :
    List String → List PdpEvent → List PdpEvent × Bool
  | [], acc => (acc, false)
  | coin :: rest, acc =>
    match pdpEval addr openNow opened closed p coin with
    | none => pdpCoinLoop addr openNow opened closed p rest acc
    | some ev =>
      let acc2 := acc ++ [ev]
      if maxHitsReached p.maxHits acc2.length then (acc2, true)
      else pdpCoinLoop addr openNow opened closed p rest acc2

/-- One wallet's input to the detector: its address and the joint outcome of
    the two fetches (fills and clearinghouse state); a failed fetch skips the
    wallet. -/
structure PdpWallet where
  addr : String
  fetched : Except JsError (List Fill × List PerpPosition)
deriving DecidableEq

/-- The outer loop over the wallet list. -/
def pdpWalletLoop (p : PdpParams) : List PdpWallet → List PdpEvent → List PdpEvent
  | [], acc => acc
  | r :: rest, acc =>
    match r.fetched with
    | .error _ => pdpWalletLoop p rest acc
    | .ok fp =>
      let openNow := openNowOf fp.2
      let oc := openedClosedOf fp.1
      let allCoins := firstDedup (keysOf oc.1 ++ keysOf oc.2)
      let res := pdpCoinLoop r.addr openNow oc.1 oc.2 p allCoins acc
      if res.2 then res.1 else pdpWalletLoop p rest res.1

/-- `runPositionDeltaPulse` as the list of classified events it returns (the
    empty list corresponds to the `no-setup` sentinel). -/
def runPositionDeltaPulse (input : List PdpWallet) (p : PdpParams) : List PdpEvent :=
  pdpWalletLoop p input []

-- ──────────────────────────────────────────────────────────────────────
-- _call: wallet-universe building, address validation, mode dispatch
-- ──────────────────────────────────────────────────────────────────────

/-- The own keys of the `strategies` registry object, in declaration order. -/
def strategyKeys : List String :=
  ["tickerLookup", "topMoverPulse", "microFlowPulse", "flowSweep",
   "liquidationSweep", "divergenceRadar", "liquidationSniper",
   "compressionRadar", "trendBias", "openInterestPulse", "positionDeltaPulse"]

def isHexDigitCh (c : Char) : Bool :=
  c.isDigit || ('a' ≤ c && c ≤ 'f') || ('A' ≤ c && c ≤ 'F')

/-- `ETH_RE = /^0x[0-9a-fA-F]{40}$/`. -/
def ethRe (s : String) : Bool :=
  strStarts s "0x" && s.data.length == 42 && (s.data.drop 2).all isHexDigitCh

/-- One row of the Browse-AI / Google-Sheet address source. -/
structure SheetRow where
  addr : String
  winrate : ℚ
  duration : ℚ
deriving DecidableEq

/-- The arguments `_call` destructures from its input, with the external
    address-source fetch abstracted to the rows it would return. -/
structure CallArgs where
  mode : String
  addresses : List String
  useBrowse : Bool
  useSheet : Bool
  rows : List SheetRow
  minWinrate : ℚ
  minDuration : ℚ
deriving DecidableEq

/-- Outcome of the dispatch portion of `_call`: an error string, running the
    named strategy, or taking the legacy `walletSummary` path. -/
inductive CallResult
  | errorMsg (msg : String)
  | dispatched (strategy : String)
  | walletSummaryRun
deriving DecidableEq

/-- The wallet universe: the caller's addresses, replaced by the filtered
    external rows when a source flag is set or the list is empty. -/
def buildAddrList (a : CallArgs) : List String :=
  if a.useBrowse || a.useSheet || a.addresses.isEmpty then
    (a.rows.filter (fun r =>
      decide (a.minWinrate ≤ r.winrate) && decide (a.minDuration ≤ r.duration))).map (·.addr)
  else a.addresses

/-- `_call` up to and including mode dispatch.  The registry lookup
    `strategies[mode]` is modelled as own-key membership in `strategyKeys`. -/
def hlCall (a : CallArgs) : CallResult :=
  let addrList := buildAddrList a
  if addrList.isEmpty then .errorMsg "No wallets to analyse."
  else
    let bad := addrList.filter (fun x => !ethRe x)
    if !bad.isEmpty then .errorMsg ("❌ Invalid address(es): " ++ String.intercalate ", " bad)
    else if a.mode != "walletSummary" then
      if a.mode ∈ strategyKeys then .dispatched a.mode
      else .errorMsg ("❌ unknown mode " ++ a.mode)
    else .walletSummaryRun

-- ──────────────────────────────────────────────────────────────────────
-- walletSummary per-wallet fill truncation
-- ──────────────────────────────────────────────────────────────────────

def MAX_FILLS : ℕ := 400

/-- The per-wallet success record of the `walletSummary` branch. -/
structure SummaryEntry where
  address : String
  fills : List Fill
  truncated : Bool
deriving DecidableEq

/-- JS `arr.slice(-n)` for `n > 0`: the last `n` elements (all of them when the
    array is shorter). -/
def jsSliceLast {α : Type} (l : List α) (n : ℕ) : List α := l.drop (l.length - n)

/-- `{ address, fills: (data || []).slice(-MAX_FILLS),
       truncated: (data || []).length > MAX_FILLS }`. -/
def walletSummaryEntry (addr : String) (data : List Fill) : SummaryEntry :=
  { address := addr,
    fills := jsSliceLast data MAX_FILLS,
    truncated := decide (MAX_FILLS < data.length) }

-- ──────────────────────────────────────────────────────────────────────
-- Helper lemmas: folds and association lists
-- ──────────────────────────────────────────────────────────────────────

theorem foldl_preserve {β γ : Type} {P : β → Prop} {step : β → γ → β}
    (hstep : ∀ b x, P b → P (step b x)) :
    ∀ (l : List γ) (b : β), P b → P (l.foldl step b)
  | [], _, hb => hb
  | x :: xs, b, hb => foldl_preserve hstep xs (step b x) (hstep b x hb)

theorem mem_upsertWith {α : Type} {m : List (String × α)} {k : String}
    {f : Option α → α} {x : String × α} (hx : x ∈ upsertWith m k f) :
    x ∈ m ∨ (∃ v, (k, v) ∈ m ∧ x = (k, f (some v))) ∨ x = (k, f none) := by
  induction m with
  | nil =>
    simp only [upsertWith, List.mem_singleton] at hx
    exact Or.inr (Or.inr hx)
  | cons hd tl ih =>
    obtain ⟨k', v⟩ := hd
    by_cases h : k' = k
    · subst h
      simp only [upsertWith, beq_self_eq_true, if_true, List.mem_cons] at hx
      rcases hx with h1 | h1
      · exact Or.inr (Or.inl ⟨v, by simp, h1⟩)
      · exact Or.inl (List.mem_cons_of_mem _ h1)
    · simp only [upsertWith, beq_iff_eq, h, if_false, List.mem_cons] at hx
      rcases hx with h1 | h1
      · exact Or.inl (by simp [h1])
      · rcases ih h1 with h2 | ⟨w, hw, h2⟩ | h2
        · exact Or.inl (List.mem_cons_of_mem _ h2)
        · exact Or.inr (Or.inl ⟨w, List.mem_cons_of_mem _ hw, h2⟩)
        · exact Or.inr (Or.inr h2)

theorem keysOf_upsertWith_of_mem {α : Type} {m : List (String × α)} {k : String}
    {f : Option α → α} (h : k ∈ keysOf m) : keysOf (upsertWith m k f) = keysOf m := by
  induction m with
  | nil => simp [keysOf] at h
  | cons hd tl ih =>
    obtain ⟨k', v⟩ := hd
    by_cases hk : k' = k
    · subst hk
      simp [upsertWith, keysOf]
    · have h' : k ∈ keysOf tl := by
        rcases List.mem_cons.mp h with h1 | h1
        · exact absurd h1.symm hk
        · exact h1
      simp only [upsertWith, beq_iff_eq, hk, if_false]
      show k' :: keysOf (upsertWith tl k f) = k' :: keysOf tl
      rw [ih h']

theorem keysOf_upsertWith_of_not_mem {α : Type} {m : List (String × α)} {k : String}
    {f : Option α → α} (h : k ∉ keysOf m) :
    keysOf (upsertWith m k f) = keysOf m ++ [k] := by
  induction m with
  | nil => simp [upsertWith, keysOf]
  | cons hd tl ih =>
    obtain ⟨k', v⟩ := hd
    have hk : k' ≠ k := by
      intro he
      exact h (by simp [keysOf, he])
    have h' : k ∉ keysOf tl := fun hm => h (by simp [keysOf] at hm ⊢; exact Or.inr hm)
    simp only [upsertWith, beq_iff_eq, hk, if_false]
    show k' :: keysOf (upsertWith tl k f) = (k' :: keysOf tl) ++ [k]
    rw [ih h']
    rfl

theorem nodup_keysOf_upsertWith {α : Type} {m : List (String × α)} {k : String}
    {f : Option α → α} (h : (keysOf m).Nodup) : (keysOf (upsertWith m k f)).Nodup := by
  by_cases hk : k ∈ keysOf m
  · rw [keysOf_upsertWith_of_mem hk]; exact h
  · rw [keysOf_upsertWith_of_not_mem hk]
    simp [List.nodup_append, h, hk]

theorem upsertWith_of_not_mem {α : Type} {m : List (String × α)} {k : String}
    {f : Option α → α} (h : k ∉ keysOf m) :
    upsertWith m k f = m ++ [(k, f none)] := by
  induction m with
  | nil => simp [upsertWith]
  | cons hd tl ih =>
    obtain ⟨k', v⟩ := hd
    have hk : k' ≠ k := by
      intro he
      exact h (by simp [keysOf, he])
    have h' : k ∉ keysOf tl := fun hm => h (by simp [keysOf] at hm ⊢; exact Or.inr hm)
    simp only [upsertWith, beq_iff_eq, hk, if_false, List.cons_append]
    exact congrArg _ (ih h')

theorem jsGet_of_mem {α : Type} {m : List (String × α)} {k : String} {v : α}
    (hnd : (keysOf m).Nodup) (hm : (k, v) ∈ m) : jsGet m k = some v := by
  induction m with
  | nil => simp at hm
  | cons hd tl ih =>
    obtain ⟨k', v'⟩ := hd
    rcases List.mem_cons.mp hm with h1 | h1
    · obtain ⟨h2, h3⟩ := Prod.mk.injEq .. ▸ h1.symm
      subst h2
      subst h3
      simp [jsGet, List.find?]
    · have hk : k' ≠ k := by
        intro he
        subst he
        have : k' ∈ keysOf tl := by
          simpa [keysOf] using List.mem_map_of_mem Prod.fst h1
        exact (List.nodup_cons.mp (by simpa [keysOf] using hnd)).1 this
      have htl : (keysOf tl).Nodup := (List.nodup_cons.mp (by simpa [keysOf] using hnd)).2
      have hbeq : (k' == k) = false := by simpa using hk
      simpa [jsGet, List.find?, hbeq] using ih htl h1

theorem sum_map_upsertWith_add (m : List (String × ℚ)) (k : String) (d : ℚ) :
    ((upsertWith m k (fun w => w.getD 0 + d)).map (·.2)).sum = (m.map (·.2)).sum + d := by
  induction m with
  | nil => simp [upsertWith]
  | cons hd tl ih =>
    obtain ⟨k', v⟩ := hd
    by_cases hk : k' = k
    · subst hk
      simp [upsertWith]
      ring
    · simp [upsertWith, hk, ih]
      ring

-- ──────────────────────────────────────────────────────────────────────
-- Helper lemmas: the stable sort model
-- ──────────────────────────────────────────────────────────────────────

theorem mem_jsInsert {α : Type} {before : α → α → Bool} {x z : α} {l : List α} :
    z ∈ jsInsert before x l ↔ z = x ∨ z ∈ l := by
  induction l with
  | nil => simp [jsInsert]
  | cons y ys ih =>
    cases hb : before y x with
    | true => simp [jsInsert, hb, ih]; tauto
    | false => simp [jsInsert, hb]

theorem mem_jsSortWith {α : Type} {before : α → α → Bool} {z : α} {l : List α} :
    z ∈ jsSortWith before l ↔ z ∈ l := by
  induction l with
  | nil => simp [jsSortWith]
  | cons x xs ih => simp [jsSortWith, mem_jsInsert, ih]

theorem pairwise_jsInsert_keyBefore {α : Type} (key : α → ℚ) (x : α) (l : List α)
    (hl : l.Pairwise (fun a b => key b ≤ key a)) :
    (jsInsert (keyBefore key) x l).Pairwise (fun a b => key b ≤ key a) := by
  induction l with
  | nil => simp [jsInsert]
  | cons y ys ih =>
    rcases List.pairwise_cons.mp hl with ⟨hy, hys⟩
    cases hb : keyBefore key y x with
    | true =>
      have hxy : key x < key y := by simpa [keyBefore] using hb
      rw [jsInsert, if_pos hb]
      refine List.pairwise_cons.mpr ⟨?_, ih hys⟩
      intro z hz
      rcases mem_jsInsert.mp hz with rfl | hz'
      · exact le_of_lt hxy
      · exact hy z hz'
    | false =>
      have hxy : key y ≤ key x := by simpa [keyBefore] using hb
      rw [jsInsert, if_neg (by simp [hb])]
      refine List.pairwise_cons.mpr ⟨?_, hl⟩
      intro z hz
      rcases List.mem_cons.mp hz with rfl | hz'
      · exact hxy
      · exact le_trans (hy z hz') hxy

theorem pairwise_jsSortWith_keyBefore {α : Type} (key : α → ℚ) (l : List α) :
    (jsSortWith (keyBefore key) l).Pairwise (fun a b => key b ≤ key a) := by
  induction l with
  | nil => simp [jsSortWith]
  | cons x xs ih => exact pairwise_jsInsert_keyBefore key x _ ih

theorem filter_jsInsert_key {α : Type} (key : α → ℚ) (x : α) (l : List α) (v : ℚ) :
    (jsInsert (keyBefore key) x l).filter (fun a => key a == v) =
      ((x :: l).filter (fun a => key a == v)) := by
  induction l with
  | nil => simp [jsInsert]
  | cons y ys ih =>
    cases hb : keyBefore key y x with
    | false => rw [jsInsert, if_neg (by simp [hb])]
    | true =>
      have hxy : key x < key y := by simpa [keyBefore] using hb
      rw [jsInsert, if_pos hb]
      by_cases hyv : key y = v
      · have hxv : (key x == v) = false := by
          simp only [beq_eq_false_iff_ne]
          intro he
          rw [he, hyv] at hxy
          exact lt_irrefl v hxy
        simp only [List.filter_cons, hxv, beq_iff_eq, hyv, if_true, if_false, ih]
        simp [List.filter_cons, hxv]
      · have hyv' : (key y == v) = false := by simpa using hyv
        simp only [List.filter_cons, hyv', if_false, ih]
        simp [List.filter_cons, hyv']

theorem filter_jsSortWith_key {α : Type} (key : α → ℚ) (l : List α) (v : ℚ) :
    (jsSortWith (keyBefore key) l).filter (fun a => key a == v) =
      l.filter (fun a => key a == v) := by
  induction l with
  | nil => rfl
  | cons x xs ih =>
    rw [jsSortWith, filter_jsInsert_key]
    simp only [List.filter_cons, ih]

theorem nodup_firstDedup (l : List String) : (firstDedup l).Nodup := by
  refine foldl_preserve (fun acc a hacc => ?_) l [] (by simp)
  by_cases h : a ∈ acc
  · simpa [h] using hacc
  · simp [h, List.nodup_append, hacc]

theorem mem_of_mem_take {α : Type} {l : List α} {n : ℕ} {x : α}
    (h : x ∈ l.take n) : x ∈ l :=
  List.mem_of_mem_take h

theorem append_suffix_inj {a b s : String} (h : a ++ s = b ++ s) : a = b := by
  have hd : a.data ++ s.data = b.data ++ s.data := by
    have := congrArg String.data h
    simpa [String.data_append] using this
  have hab : a.data = b.data := List.append_cancel_right hd
  cases a
  cases b
  exact congrArg String.mk hab

-- ──────────────────────────────────────────────────────────────────────
-- Invariants of the flow aggregates
-- ──────────────────────────────────────────────────────────────────────

theorem flowStep_preserves (addr : String) (f : Fill) (agg : List (String × CoinAgg))
    (h : ∀ e ∈ agg, e.2.net = (e.2.wallets.map (·.2)).sum) :
    ∀ e ∈ flowStep agg addr f, e.2.net = (e.2.wallets.map (·.2)).sum := by
  intro e he
  simp only [flowStep] at he
  rcases mem_upsertWith he with h1 | ⟨v, hv, rfl⟩ | rfl
  · exact h e h1
  · have hv2 := h _ hv
    simp only at hv2
    simp only [Option.getD_some]
    rw [sum_map_upsertWith_add, ← hv2]
  · simp only [Option.getD_none]
    simp [upsertWith]

theorem flowAgg_invariant (resp : List WalletFills) :
    ∀ e ∈ flowAgg resp, e.2.net = (e.2.wallets.map (·.2)).sum := by
  refine foldl_preserve
    (P := fun (agg : List (String × CoinAgg)) =>
      ∀ e ∈ agg, e.2.net = (e.2.wallets.map (·.2)).sum)
    (fun agg r hagg => ?_) resp [] (fun e he => absurd he (List.not_mem_nil e))
  exact foldl_preserve (fun a f ha => flowStep_preserves r.addr f a ha) r.fills agg hagg

theorem nodup_keysOf_perCoinNet (fills : List Fill) : (keysOf (perCoinNet fills)).Nodup := by
  refine foldl_preserve (P := fun pc => (keysOf pc).Nodup)
    (fun pc f h => nodup_keysOf_upsertWith h) fills [] (by simp [keysOf])

theorem trendMerge_invariant (addr : String) (processed : List String)
    (haddr : addr ∉ processed) :
    ∀ (perCoin : List (String × ℚ)) (agg : List (String × TrendCoin)),
      (keysOf perCoin).Nodup →
      (∀ e ∈ agg,
        e.2.net = (e.2.details.map (·.2)).sum ∧
        ∀ d ∈ e.2.details, d.1 ∈ processed ∨ (d.1 = addr ∧ e.1 ∉ keysOf perCoin)) →
      ∀ e ∈ trendMerge agg addr perCoin,
        e.2.net = (e.2.details.map (·.2)).sum ∧
        ∀ d ∈ e.2.details, d.1 ∈ processed ∨ d.1 = addr := by
  intro perCoin
  induction perCoin with
  | nil =>
    intro agg _ hagg e he
    have h := hagg e he
    exact ⟨h.1, fun d hd => (h.2 d hd).imp_right And.left⟩
  | cons cd rest ih =>
    intro agg hnd hagg e he
    have hnd' : (cd.1 :: keysOf rest).Nodup := hnd
    have hcd : cd.1 ∉ keysOf rest := (List.nodup_cons.mp hnd').1
    have hndrest : (keysOf rest).Nodup := (List.nodup_cons.mp hnd').2
    rw [show trendMerge agg addr (cd :: rest) =
        trendMerge (upsertWith agg cd.1 (fun o =>
          let c := o.getD { net := 0, wallets := [], details := [] }
          { net := c.net + cd.2,
            wallets := setAdd c.wallets addr,
            details := upsertWith c.details addr (fun _ => cd.2) })) addr rest from rfl] at he
    refine ih _ hndrest ?_ e he
    intro x hx
    rcases mem_upsertWith hx with h1 | ⟨v, hv, rfl⟩ | rfl
    · have h := hagg x h1
      refine ⟨h.1, fun d hd => ?_⟩
      rcases h.2 d hd with h2 | ⟨h2, h3⟩
      · exact Or.inl h2
      · refine Or.inr ⟨h2, fun hm => h3 ?_⟩
        exact List.mem_cons_of_mem _ hm
    · have h := hagg _ hv
      have hdet : ∀ d ∈ v.details, d.1 ∈ processed := by
        intro d hd
        rcases h.2 d hd with h2 | ⟨_, h3⟩
        · exact h2
        · exact absurd (List.mem_cons_self _ _) h3
      have haddr' : addr ∉ keysOf v.details := by
        intro hm
        simp only [keysOf, List.mem_map] at hm
        obtain ⟨d, hd, hd2⟩ := hm
        exact haddr (hd2 ▸ hdet d hd)
      simp only [Option.getD_some]
      have h1 : v.net = (v.details.map (·.2)).sum := h.1
      constructor
      · rw [upsertWith_of_not_mem haddr']
        simp [h1]
      · intro d hd
        rw [upsertWith_of_not_mem haddr'] at hd
        rcases List.mem_append.mp hd with hd1 | hd1
        · exact Or.inl (hdet d hd1)
        · rcases List.mem_singleton.mp hd1 with rfl
          exact Or.inr ⟨rfl, hcd⟩
    · simp only [Option.getD_none]
      constructor
      · simp [upsertWith]
      · intro d hd
        simp only [upsertWith, List.mem_singleton] at hd
        rcases hd with rfl
        exact Or.inr ⟨rfl, hcd⟩

theorem trendAgg_invariant_aux :
    ∀ (resp : List WalletFills) (agg : List (String × TrendCoin)) (processed : List String),
      (resp.map (·.addr)).Nodup →
      (∀ r ∈ resp, r.addr ∉ processed) →
      (∀ e ∈ agg, e.2.net = (e.2.details.map (·.2)).sum ∧
        ∀ d ∈ e.2.details, d.1 ∈ processed) →
      ∀ e ∈ resp.foldl (fun a r => trendMerge a r.addr (perCoinNet r.fills)) agg,
        e.2.net = (e.2.details.map (·.2)).sum := by
  intro resp
  induction resp with
  | nil => intro agg processed _ _ hagg e he; exact (hagg e he).1
  | cons r rest ih =>
    intro agg processed h1 h2 hagg e he
    have hraddr : r.addr ∉ processed := h2 r (by simp)
    have hmerge := trendMerge_invariant r.addr processed hraddr (perCoinNet r.fills) agg
      (nodup_keysOf_perCoinNet r.fills)
      (fun x hx => ⟨(hagg x hx).1, fun d hd => Or.inl ((hagg x hx).2 d hd)⟩)
    refine ih _ (processed ++ [r.addr]) ?_ ?_ ?_ e (by simpa using he)
    · exact (List.nodup_cons.mp (by simpa using h1)).2
    · intro r' hr'
      simp only [List.mem_append, List.mem_singleton]
      rintro (hm | hm)
      · exact h2 r' (List.mem_cons_of_mem _ hr') hm
      · have : r.addr ∈ rest.map (·.addr) := by
          rw [← hm]
          exact List.mem_map_of_mem _ hr'
        exact (List.nodup_cons.mp (by simpa using h1)).1 this
    · intro x hx
      refine ⟨(hmerge x hx).1, fun d hd => ?_⟩
      rcases (hmerge x hx).2 d hd with hm | hm
      · simp [hm]
      · simp [hm]

theorem trendAgg_invariant (resp : List WalletFills)
    (h : (resp.map (·.addr)).Nodup) :
    ∀ e ∈ trendAgg resp, e.2.net = (e.2.details.map (·.2)).sum := by
  exact trendAgg_invariant_aux resp [] [] h (by simp) (by simp)

-- ──────────────────────────────────────────────────────────────────────
-- Lemmas about the divergence book and scan
-- ──────────────────────────────────────────────────────────────────────

theorem divStep_closers_nodup (addr : String) (f : Fill) (b : List (String × DivBook))
    (h : ∀ e ∈ b, (keysOf e.2.closers).Nodup) :
    ∀ e ∈ divStep b addr f, (keysOf e.2.closers).Nodup := by
  intro e he
  simp only [divStep] at he
  split at he
  · rcases mem_upsertWith he with h1 | ⟨v, hv, rfl⟩ | rfl
    · exact h e h1
    · simp only [Option.getD_some]
      exact nodup_keysOf_upsertWith (h _ hv)
    · simp only [Option.getD_none]
      simp [upsertWith, keysOf]
  · split at he
    · rcases mem_upsertWith he with h1 | ⟨v, hv, rfl⟩ | rfl
      · exact h e h1
      · simp only [Option.getD_some]
        exact h _ hv
      · simp only [Option.getD_none]
        simp [keysOf]
    · exact h e he

theorem divBook_closers_nodup (resp : List WalletFills) :
    ∀ e ∈ divBook resp, (keysOf e.2.closers).Nodup := by
  refine foldl_preserve
    (P := fun (b : List (String × DivBook)) => ∀ e ∈ b, (keysOf e.2.closers).Nodup)
    (fun b r hb => ?_) resp [] (fun e he => absurd he (List.not_mem_nil e))
  exact foldl_preserve (fun b2 f h2 => divStep_closers_nodup r.addr f b2 h2) r.fills b hb

theorem divScan_eq_some (p : DivParams) :
    ∀ (book : List (String × DivBook)) (res : DivResult),
      divScan p book = some res →
      ∃ cd ∈ book,
        res = { coin := cd.1 ++ "-PERP", side := cd.2.side,
                closers := mkDivSummary (divQualifyingClosers cd.2 p.closeNotional),
                builders := mkDivSummary (divQualifyingBuilders cd.2 p.buildNotional) } := by
  intro book
  induction book with
  | nil => intro res h; simp [divScan] at h
  | cons cd rest ih =>
    intro res h
    obtain ⟨coin, d⟩ := cd
    simp only [divScan] at h
    split at h
    · exact ⟨(coin, d), by simp, (Option.some.inj h).symm⟩
    · obtain ⟨cd', hm, he⟩ := ih res h
      exact ⟨cd', List.mem_cons_of_mem _ hm, he⟩

theorem mem_of_mkDivSummary_top {entries : List (String × ℚ)} {a : String}
    (ha : a ∈ (mkDivSummary entries).top.map (·.1)) : ∃ q, (a, q) ∈ entries := by
  simp only [mkDivSummary, List.map_map, List.mem_map] at ha
  obtain ⟨e, he, rfl⟩ := ha
  refine ⟨e.2, ?_⟩
  have h1 : e ∈ jsSortWith (keyBefore (·.2)) entries := List.mem_of_mem_take he
  exact mem_jsSortWith.mp h1

-- ──────────────────────────────────────────────────────────────────────
-- Lemmas about the position-delta loops
-- ──────────────────────────────────────────────────────────────────────

theorem pdpEval_some {addr : String} {openNow : List (String × PosState)}
    {opened closed : List (String × SideUsd)} {p : PdpParams} {coin : String}
    {ev : PdpEvent} (h : pdpEval addr openNow opened closed p coin = some ev) :
    ev.wallet = addr ∧ ev.coin = coin ++ "-PERP" ∧
    (ev.action = "reduced" ∨ ev.action = "added" ∨ ev.action = "opened") := by
  simp only [pdpEval] at h
  split at h
  · obtain rfl := (Option.some.inj h).symm
    refine ⟨rfl, rfl, ?_⟩
    simp only
    split
    · exact Or.inl rfl
    · split
      · exact Or.inr (Or.inl rfl)
      · exact Or.inr (Or.inr rfl)
  · exact absurd h (by simp)

theorem pdpCoinLoop_spec (addr : String) (openNow : List (String × PosState))
    (opened closed : List (String × SideUsd)) (p : PdpParams) :
    ∀ (coins : List String) (acc : List PdpEvent),
      ∃ delta,
        (pdpCoinLoop addr openNow opened closed p coins acc).1 = acc ++ delta ∧
        (delta.map (fun e => (e.wallet, e.coin))).Sublist
          (coins.map (fun c => (addr, c ++ "-PERP"))) ∧
        ∀ ev ∈ delta, ev.wallet = addr ∧
          (ev.action = "reduced" ∨ ev.action = "added" ∨ ev.action = "opened") := by
  intro coins
  induction coins with
  | nil =>
    intro acc
    exact ⟨[], by simp [pdpCoinLoop], by simp, by simp⟩
  | cons coin rest ih =>
    intro acc
    cases hev : pdpEval addr openNow opened closed p coin with
    | none =>
      obtain ⟨delta, h1, h2, h3⟩ := ih acc
      refine ⟨delta, ?_, h2.cons _, h3⟩
      simpa [pdpCoinLoop, hev] using h1
    | some ev =>
      obtain ⟨hw, hc, ha⟩ := pdpEval_some hev
      by_cases hmax : maxHitsReached p.maxHits (acc.length + 1) = true
      · refine ⟨[ev], by simp [pdpCoinLoop, hev, hmax], ?_, ?_⟩
        · have : [(ev.wallet, ev.coin)] = [(addr, coin ++ "-PERP")] := by rw [hw, hc]
          simp only [List.map_cons, List.map_nil, this, List.map_cons]
          exact (List.nil_sublist _).cons₂ _
        · intro e he
          rcases List.mem_singleton.mp he with rfl
          exact ⟨hw, ha⟩
      · obtain ⟨delta, h1, h2, h3⟩ := ih (acc ++ [ev])
        refine ⟨ev :: delta, ?_, ?_, ?_⟩
        · have : (pdpCoinLoop addr openNow opened closed p (coin :: rest) acc) =
            pdpCoinLoop addr openNow opened closed p rest (acc ++ [ev]) := by
            simp [pdpCoinLoop, hev, hmax]
          rw [this, h1]
          simp
        · have hpair : (ev.wallet, ev.coin) = (addr, coin ++ "-PERP") := by rw [hw, hc]
          simp only [List.map_cons, hpair]
          exact h2.cons₂ _
        · intro e he
          rcases List.mem_cons.mp he with rfl | he'
          · exact ⟨hw, ha⟩
          · exact h3 e he'

theorem pdpWalletLoop_spec (p : PdpParams) :
    ∀ (input : List PdpWallet) (acc : List PdpEvent),
      (input.map (·.addr)).Nodup →
      (acc.map (fun e => (e.wallet, e.coin))).Nodup →
      (∀ ev ∈ acc, ∀ r ∈ input, ev.wallet ≠ r.addr) →
      (∀ ev ∈ acc, ev.action = "reduced" ∨ ev.action = "added" ∨ ev.action = "opened") →
      ((pdpWalletLoop p input acc).map (fun e => (e.wallet, e.coin))).Nodup ∧
      ∀ ev ∈ pdpWalletLoop p input acc,
        ev.action = "reduced" ∨ ev.action = "added" ∨ ev.action = "opened" := by
  intro input
  induction input with
  | nil => intro acc _ h2 _ h4; exact ⟨h2, h4⟩
  | cons r rest ih =>
    intro acc h1 h2 h3 h4
    have h1rest : (rest.map (·.addr)).Nodup := (List.nodup_cons.mp (by simpa using h1)).2
    have h1head : r.addr ∉ rest.map (·.addr) := (List.nodup_cons.mp (by simpa using h1)).1
    cases hf : r.fetched with
    | error e =>
      rw [show pdpWalletLoop p (r :: rest) acc = pdpWalletLoop p rest acc by
        simp [pdpWalletLoop, hf]]
      exact ih acc h1rest h2 (fun ev hev r' hr' => h3 ev hev r' (List.mem_cons_of_mem _ hr')) h4
    | ok fp =>
      obtain ⟨delta, hd1, hd2, hd3⟩ :=
        pdpCoinLoop_spec r.addr (openNowOf fp.2) (openedClosedOf fp.1).1 (openedClosedOf fp.1).2 p
          (firstDedup (keysOf (openedClosedOf fp.1).1 ++ keysOf (openedClosedOf fp.1).2)) acc
      have hcoins : (firstDedup (keysOf (openedClosedOf fp.1).1 ++
          keysOf (openedClosedOf fp.1).2)).Nodup := nodup_firstDedup _
      have hinj : Function.Injective (fun c => (r.addr, c ++ "-PERP")) := by
        intro a b hab
        have h1' := congrArg Prod.snd hab
        exact append_suffix_inj h1'
      have hmapnodup : ((firstDedup (keysOf (openedClosedOf fp.1).1 ++
          keysOf (openedClosedOf fp.1).2)).map (fun c => (r.addr, c ++ "-PERP"))).Nodup :=
        hcoins.map hinj
      have hdeltanodup : (delta.map (fun e => (e.wallet, e.coin))).Nodup :=
        List.Nodup.sublist hd2 hmapnodup
      have hdeltawallet : ∀ ev ∈ delta, ev.wallet = r.addr := fun ev hev => (hd3 ev hev).1
      have haccnodup : ((acc ++ delta).map (fun e => (e.wallet, e.coin))).Nodup := by
        rw [List.map_append]
        rw [List.nodup_append]
        refine ⟨h2, hdeltanodup, ?_⟩
        intro pr hpr hpr'
        simp only [List.mem_map] at hpr hpr'
        obtain ⟨ev, hev, rfl⟩ := hpr
        obtain ⟨ev', hev', heq⟩ := hpr'
        have hw1 : ev.wallet ≠ r.addr := h3 ev hev r (List.mem_cons_self r rest)
        have hw2 : ev'.wallet = r.addr := hdeltawallet ev' hev'
        have : ev'.wallet = ev.wallet := congrArg Prod.fst heq
        exact hw1 (by rw [← this, hw2])
      have haccact : ∀ ev ∈ acc ++ delta,
          ev.action = "reduced" ∨ ev.action = "added" ∨ ev.action = "opened" := by
        intro ev hev
        rcases List.mem_append.mp hev with h | h
        · exact h4 ev h
        · exact (hd3 ev h).2
      cases hstop : (pdpCoinLoop r.addr (openNowOf fp.2) (openedClosedOf fp.1).1
          (openedClosedOf fp.1).2 p (firstDedup (keysOf (openedClosedOf fp.1).1 ++
          keysOf (openedClosedOf fp.1).2)) acc).2 with
      | true =>
        rw [show pdpWalletLoop p (r :: rest) acc = (pdpCoinLoop r.addr (openNowOf fp.2)
            (openedClosedOf fp.1).1 (openedClosedOf fp.1).2 p
            (firstDedup (keysOf (openedClosedOf fp.1).1 ++
              keysOf (openedClosedOf fp.1).2)) acc).1 by
          simp [pdpWalletLoop, hf, hstop]]
        rw [hd1]
        exact ⟨haccnodup, haccact⟩
      | false =>
        rw [show pdpWalletLoop p (r :: rest) acc = pdpWalletLoop p rest
            ((pdpCoinLoop r.addr (openNowOf fp.2) (openedClosedOf fp.1).1
              (openedClosedOf fp.1).2 p (firstDedup (keysOf (openedClosedOf fp.1).1 ++
                keysOf (openedClosedOf fp.1).2)) acc).1) by
          simp [pdpWalletLoop, hf, hstop]]
        rw [hd1]
        refine ih (acc ++ delta) h1rest haccnodup ?_ haccact
        intro ev hev r' hr'
        rcases List.mem_append.mp hev with h | h
        · exact h3 ev h r' (List.mem_cons_of_mem _ hr')
        · rw [hdeltawallet ev h]
          intro he
          exact h1head (he ▸ List.mem_map_of_mem (·.addr) hr')

-- ──────────────────────────────────────────────────────────────────────
-- Claim theorems
-- ──────────────────────────────────────────────────────────────────────

/-- C1: for every fill with action in {Open, Close} processed by the
    net-notional aggregation (`runFlowSweep`, `runTrendBias`,
    `runCompressionRadar`, `runOpenInterestPulse` all compute
    `signedContribution`), the signed notional added to the aggregate equals
    `+|sizeUnits| × price` when (side = Long and action = Open) or
    (side = Short and action = Close), and `-|sizeUnits| × price` otherwise. -/
theorem C1_sign_convention (coin : String) (a : FillAct) (s : FillSide) (sz px : ℚ) :
    signedContribution { coin := coin, dir := dirString a s, sz := sz, px := px } =
      if (s = FillSide.Long ∧ a = FillAct.Open) ∨ (s = FillSide.Short ∧ a = FillAct.Close)
      then |sz| * px else -(|sz| * px) := by
  cases a <;> cases s <;>
    simp only [signedContribution, dirString,
      show fillSign "Open Long" = 1 from rfl,
      show fillSign "Open Short" = -1 from rfl,
      show fillSign "Close Long" = -1 from rfl,
      show fillSign "Close Short" = 1 from rfl] <;>
    simp

/-- C2: for every collection of per-wallet fill lists (one list per distinct
    wallet) folded by the flow aggregation, every instrument's `netNotional`
    equals the sum of that instrument's per-wallet contributions — both in the
    `runFlowSweep` shape (`wallets`) and the `runTrendBias` shape (`details`). -/
theorem C2_net_equals_perWallet_sum (resp : List WalletFills)
    (h : (resp.map (·.addr)).Nodup) :
    (∀ e ∈ flowAgg resp, e.2.net = (e.2.wallets.map (·.2)).sum) ∧
    (∀ e ∈ trendAgg resp, e.2.net = (e.2.details.map (·.2)).sum) :=
  ⟨flowAgg_invariant resp, trendAgg_invariant resp h⟩

/-- C2 witness: the invariant instantiated at a concrete two-wallet response. -/
theorem C2_net_equals_perWallet_sum_witness :
    (([{ addr := "0xa", fills := [{ coin := "BTC", dir := "Open Long", sz := 2, px := 100 }] },
       { addr := "0xb", fills := [{ coin := "BTC", dir := "Open Short", sz := 3, px := 100 }] }] :
        List WalletFills).map (·.addr)).Nodup ∧
    ((∀ e ∈ flowAgg
        [{ addr := "0xa", fills := [{ coin := "BTC", dir := "Open Long", sz := 2, px := 100 }] },
         { addr := "0xb", fills := [{ coin := "BTC", dir := "Open Short", sz := 3, px := 100 }] }],
        e.2.net = (e.2.wallets.map (·.2)).sum) ∧
     (∀ e ∈ trendAgg
        [{ addr := "0xa", fills := [{ coin := "BTC", dir := "Open Long", sz := 2, px := 100 }] },
         { addr := "0xb", fills := [{ coin := "BTC", dir := "Open Short", sz := 3, px := 100 }] }],
        e.2.net = (e.2.details.map (·.2)).sum)) :=
  ⟨by decide, C2_net_equals_perWallet_sum _ (by decide)⟩

/-- C5: if the upstream liquidation query fails with HTTP status 422, then
    `aggregateLiquidations` returns the empty aggregate rather than
    propagating an error. -/
theorem C5_liq_422_empty_aggregate (e : JsError) (h : e.status = some 422) :
    aggregateLiquidations (.error e) = .ok [] := by
  simp [aggregateLiquidations, fetchLiquidations, h, liqFold, Except.map]

/-- C5 witness: the 422 special case at a concrete error value. -/
theorem C5_liq_422_empty_aggregate_witness :
    ({ status := some 422, code := none } : JsError).status = some 422 ∧
    aggregateLiquidations (.error { status := some 422, code := none }) = .ok [] :=
  ⟨rfl, C5_liq_422_empty_aggregate _ rfl⟩

/-- C7: `runLiquidationSweep` output is sorted descending by
    `max(longLiq, shortLiq)` and, for every key value, the entries carrying
    that value appear in exactly their input (aggregate enumeration) order. -/
theorem C7_liqSweep_sorted_stable (liqAgg : List (String × LiqTotals)) :
    (runLiquidationSweep liqAgg).Pairwise (fun a b => liqRowKey b ≤ liqRowKey a) ∧
    ∀ v : ℚ, (runLiquidationSweep liqAgg).filter (fun r => liqRowKey r == v) =
      (liqAgg.map mkLiqRow).filter (fun r => liqRowKey r == v) :=
  ⟨pairwise_jsSortWith_keyBefore liqRowKey _, fun v => filter_jsSortWith_key liqRowKey _ v⟩

/-- C10: a successful `walletSummary` wallet entry keeps at most the last
    `MAX_FILLS = 400` upstream fills (a suffix of the response of length
    `min length 400`), and its `truncated` flag is set iff the upstream
    response held more than 400 fills. -/
theorem C10_walletSummary_truncation (addr : String) (data : List Fill) :
    (walletSummaryEntry addr data).fills.length = min data.length MAX_FILLS ∧
    (walletSummaryEntry addr data).fills <:+ data ∧
    ((walletSummaryEntry addr data).truncated = true ↔ MAX_FILLS < data.length) := by
  refine ⟨?_, ?_, ?_⟩
  · simp only [walletSummaryEntry, jsSliceLast, List.length_drop]
    omega
  · simp only [walletSummaryEntry]
    exact List.drop_suffix _ _
  · simp [walletSummaryEntry]

/-- C8: with one record per wallet, `runPositionDeltaPulse` emits at most one
    classified event per (wallet, instrument) pair — the emitted
    (wallet, coin) pairs are pairwise distinct — and every emitted action is
    exactly one of `"reduced"`, `"added"`, `"opened"`. -/
theorem C8_pdp_mutually_exclusive (input : List PdpWallet) (p : PdpParams)
    (h : (input.map (·.addr)).Nodup) :
    ((runPositionDeltaPulse input p).map (fun e => (e.wallet, e.coin))).Nodup ∧
    ∀ ev ∈ runPositionDeltaPulse input p,
      ev.action = "reduced" ∨ ev.action = "added" ∨ ev.action = "opened" :=
  pdpWalletLoop_spec p input [] h (by simp) (by simp) (by simp)

/-- C8 witness: the exclusivity property at a concrete input that does emit an
    event (a held long position trimmed above the threshold). -/
theorem C8_pdp_mutually_exclusive_witness :
    (([{ addr := "0xa", fetched := Except.ok
          ([{ coin := "BTC", dir := "Close Long", sz := 1, px := 300000 }],
           [{ coin := "BTC", szi := 1, entryPx := 50000, liquidationPx := 40000 }]) }] :
        List PdpWallet).map (·.addr)).Nodup ∧
    (((runPositionDeltaPulse
        [{ addr := "0xa", fetched := Except.ok
            ([{ coin := "BTC", dir := "Close Long", sz := 1, px := 300000 }],
             [{ coin := "BTC", szi := 1, entryPx := 50000, liquidationPx := 40000 }]) }]
        { trimUsd := 250000, addUsd := 250000, newUsd := 250000, maxHits := none }).map
          (fun e => (e.wallet, e.coin))).Nodup ∧
     ∀ ev ∈ runPositionDeltaPulse
        [{ addr := "0xa", fetched := Except.ok
            ([{ coin := "BTC", dir := "Close Long", sz := 1, px := 300000 }],
             [{ coin := "BTC", szi := 1, entryPx := 50000, liquidationPx := 40000 }]) }]
        { trimUsd := 250000, addUsd := 250000, newUsd := 250000, maxHits := none },
        ev.action = "reduced" ∨ ev.action = "added" ∨ ev.action = "opened") :=
  ⟨by decide, C8_pdp_mutually_exclusive _ _ (by decide)⟩

/-- C9: for every call whose mode differs from "walletSummary" and is not a
    key of the strategy registry, `_call` dispatches no detector, and — when
    the wallet universe is nonempty and every address is valid, so the
    earlier input checks do not fire first — returns the
    "unknown mode <mode>" error message. -/
theorem C9_unknown_mode_rejected (a : CallArgs)
    (hmode : a.mode ≠ "walletSummary") (hreg : a.mode ∉ strategyKeys) :
    (∀ k, hlCall a ≠ CallResult.dispatched k) ∧
    ((buildAddrList a ≠ [] ∧ ∀ x ∈ buildAddrList a, ethRe x = true) →
      hlCall a = CallResult.errorMsg ("❌ unknown mode " ++ a.mode)) := by
  have hbne : (a.mode != "walletSummary") = true := by simpa using hmode
  constructor
  · intro k
    simp only [hlCall]
    rw [if_neg hreg]
    repeat' split
    all_goals simp
  · rintro ⟨hne, hval⟩
    have he : (buildAddrList a).isEmpty = false := by
      cases hcae : (buildAddrList a).isEmpty
      · rfl
      · exact absurd (List.isEmpty_iff.mp hcae) hne
    have hbad : (buildAddrList a).filter (fun x => !ethRe x) = [] := by
      refine List.filter_eq_nil_iff.mpr ?_
      intro x hx
      simp [hval x hx]
    simp [hlCall, he, hbad, hbne, hreg]

/-- C9 witness: a concrete call with one valid address and an unregistered
    mode is answered with the unknown-mode error. -/
theorem C9_unknown_mode_rejected_witness :
    hlCall { mode := "bogus",
             addresses := ["0xabcdefABCDEF0123456789abcdefABCDEF012345"],
             useBrowse := false, useSheet := false, rows := [],
             minWinrate := 0, minDuration := 0 } =
      CallResult.errorMsg ("❌ unknown mode " ++ "bogus") :=
  (C9_unknown_mode_rejected _ (by decide) (by decide)).2 ⟨by decide, by decide⟩

/-- C4 counterexample: a non-transient HTTP 400 failure on the first attempt
    does NOT fail immediately — `hlPost` issues a second attempt (and returns
    its success), contradicting "fails immediately with that error and
    triggers no further attempt". -/
theorem C4_counterexample :
    (hlPost (fun i => if i = 0 then Except.error ({ status := some 400, code := none })
                      else Except.ok "payload") 3).attemptsMade = 2 ∧
    (hlPost (fun i => if i = 0 then Except.error ({ status := some 400, code := none })
                      else Except.ok "payload") 3).result = some (Except.ok "payload") ∧
    (2 : ℕ) ≠ 1 := by
  refine ⟨by decide, by decide, by decide⟩

/-- C4 (amended): every failure — transient or not — is retried until the
    attempt budget of 3 (2 extra attempts) is exhausted; a backoff sleep of
    `500ms × (attempt index + 1)` is performed exactly after the transient
    (429 / timeout) failures among the non-final attempts, and a non-final
    non-transient failure is retried immediately with no sleep; only the final
    attempt's error propagates. -/
theorem C4_amended_retry_behavior {α : Type} (attempt : ℕ → Except JsError α)
    (e : ℕ → JsError) :
    (∀ k, k < 3 → ∀ v, (∀ i, i < k → attempt i = .error (e i)) → attempt k = .ok v →
      hlPost attempt 3 =
        { result := some (.ok v),
          attemptsMade := k + 1,
          sleepsMs := (List.range k).filterMap
            (fun i => if shouldBackoff (e i) then some (500 * (i + 1)) else none) }) ∧
    ((∀ i, i < 3 → attempt i = .error (e i)) →
      hlPost attempt 3 =
        { result := some (.error (e 2)),
          attemptsMade := 3,
          sleepsMs := (List.range 2).filterMap
            (fun i => if shouldBackoff (e i) then some (500 * (i + 1)) else none) }) := by
  constructor
  · intro k hk v hfail hok
    interval_cases k
    · simp [hlPost, hlPostGo, hok]
    · have h0 := hfail 0 (by norm_num)
      by_cases hb : shouldBackoff (e 0) = true
      · simp [hlPost, hlPostGo, h0, hok, hb, List.range_succ]
      · simp only [Bool.not_eq_true] at hb
        simp [hlPost, hlPostGo, h0, hok, hb, List.range_succ]
    · have h0 := hfail 0 (by norm_num)
      have h1 := hfail 1 (by norm_num)
      by_cases hb0 : shouldBackoff (e 0) = true <;>
        by_cases hb1 : shouldBackoff (e 1) = true <;>
        simp only [Bool.not_eq_true] at hb0 hb1 <;>
        simp [hlPost, hlPostGo, h0, h1, hok, hb0, hb1, List.range_succ]
  · intro hfail
    have h0 := hfail 0 (by norm_num)
    have h1 := hfail 1 (by norm_num)
    have h2 := hfail 2 (by norm_num)
    by_cases hb0 : shouldBackoff (e 0) = true <;>
      by_cases hb1 : shouldBackoff (e 1) = true <;>
      simp only [Bool.not_eq_true] at hb0 hb1 <;>
      simp [hlPost, hlPostGo, h0, h1, h2, hb0, hb1, List.range_succ]

/-- C4 witness: a 429 failure, then a 400 failure, then a success: three
    attempts are made and exactly one 500ms backoff sleep (for the 429)
    is performed. -/
theorem C4_amended_retry_behavior_witness :
    hlPost (fun i => if i = 0 then Except.error ({ status := some 429, code := none })
                     else if i = 1 then Except.error ({ status := some 400, code := none })
                     else Except.ok "x") 3 =
      { result := some (Except.ok "x"), attemptsMade := 3, sleepsMs := [500] } := by
  have h := (C4_amended_retry_behavior
      (fun i => if i = 0 then Except.error ({ status := some 429, code := none })
                else if i = 1 then Except.error ({ status := some 400, code := none })
                else Except.ok "x")
      (fun i => if i = 0 then { status := some 429, code := none }
                else { status := some 400, code := none })).1
    2 (by norm_num) "x"
    (by intro i hi; interval_cases i <;> rfl) rfl
  rw [h]
  decide

/-- C3 (code bug): the final `.sort` of `runFlowSweep` compares the
    nonexistent `net` property of the freshly mapped rows (they carry
    `netNotional`), so the comparator always returns `NaN` and the list is NOT
    ranked: on this input the two qualifying rows keep aggregation (insertion)
    order, `[60000, 70000]`, instead of descending order of net notional. -/
theorem C3_flowSweep_not_ranked :
    ((runFlowSweep
        [{ addr := "0xa",
           fills := [{ coin := "BTC", dir := "Open Long", sz := 1, px := 60000 },
                     { coin := "ETH", dir := "Open Long", sz := 1, px := 70000 }] }]
        50000).map FlowRow.netNotional) = [60000, 70000] ∧
    ¬ ((70000 : ℚ) ≤ 60000) := by
  constructor
  · norm_num [runFlowSweep, flowAgg, flowStep, mkFlowRow, jsSortWith, jsInsert,
      flowRowBefore, jsNegU, jsSubU, jsAbsU, FlowRow.netProp, upsertWith,
      signedContribution, fmt2, keyBefore,
      show fillSign "Open Long" = 1 from rfl]
  · norm_num

/-- C6 (amended): whenever the close threshold is positive, a result returned
    by `runDivergence` never names the same wallet among the closers' and the
    builders' top lists of the instrument — the builder filter keeps only
    wallets whose recorded closing total is absent or zero (JS truthiness),
    and a positive threshold forces every qualifying closer's total positive. -/
theorem C6_divergence_disjoint (resp : List WalletFills) (p : DivParams)
    (res : DivResult) (hpos : 0 < p.closeNotional)
    (hres : runDivergence resp p = some res) :
    ∀ a ∈ res.closers.top.map (·.1), a ∉ res.builders.top.map (·.1) := by
  obtain ⟨cd, hcd, rfl⟩ := divScan_eq_some p (divBook resp) res hres
  intro a ha hb
  obtain ⟨q, hq⟩ := mem_of_mkDivSummary_top ha
  obtain ⟨q2, hq2⟩ := mem_of_mkDivSummary_top hb
  simp only [divQualifyingClosers] at hq
  simp only [divQualifyingBuilders] at hq2
  have hq1 := List.mem_filter.mp hq
  have hclose : p.closeNotional ≤ q := by simpa using hq1.2
  have hqmem : (a, q) ∈ cd.2.closers := hq1.1
  have htr : truthyQ (jsGet cd.2.closers a) = false := by
    have h := (List.mem_filter.mp hq2).2
    simpa using h
  have hnd := divBook_closers_nodup resp cd hcd
  have hget : jsGet cd.2.closers a = some q := jsGet_of_mem hnd hqmem
  rw [hget] at htr
  have hq0 : q ≠ 0 := ne_of_gt (lt_of_lt_of_le hpos hclose)
  simp [truthyQ, hq0] at htr

/-- C6 counterexample: with a zero close threshold, a wallet whose recorded
    closing notional is zero (a `Close Long` fill at price 0) qualifies as a
    closer AND survives the JS-truthiness builder filter
    (`!data.closers[addr]` is true for a stored 0), so `runDivergence` returns
    the same wallet in both sets of the same instrument, refuting the claim
    as stated over every input. -/
theorem C6_counterexample :
    ∃ res, runDivergence
        [{ addr := "0xw",
           fills := [{ coin := "BTC", dir := "Close Long", sz := 1, px := 0 },
                     { coin := "BTC", dir := "Open Long", sz := 1, px := 60000 }] }]
        { closeNotional := 0, buildNotional := 50000, minClosers := 1, minBuilders := 1 } =
        some res ∧
      "0xw" ∈ res.closers.top.map (·.1) ∧ "0xw" ∈ res.builders.top.map (·.1) := by
  refine ⟨{ coin := "BTC" ++ "-PERP", side := "long",
            closers := { walletCount := 1, notional := 0, top := [("0xw", 0)] },
            builders := { walletCount := 1, notional := 60000, top := [("0xw", 60000)] } },
    ?_, ?_, ?_⟩
  · norm_num [runDivergence, divBook, divStep, divScan, divQualifyingClosers,
      divQualifyingBuilders, mkDivSummary, upsertWith, jsGet, truthyQ, jsSortWith,
      jsInsert, keyBefore, fmt2, List.find?, List.filter_cons, List.filter_nil,
      show strStarts "Close Long" "Close" = true from rfl,
      show strStarts "Open Long" "Close" = false from rfl,
      show strStarts "Open Long" "Open" = true from rfl,
      show strHas "Close Long" "Long" = true from rfl,
      show strHas "Open Long" "Long" = true from rfl]
  · simp
  · simp

/-- C6 witness (for the amended theorem): a positive close threshold at a
    concrete divergence hit — distinct closer and builder wallets, and the
    disjointness conclusion instantiated there. -/
theorem C6_divergence_disjoint_witness :
    (0 : ℚ) < 50000 ∧
    runDivergence
        [{ addr := "0xa",
           fills := [{ coin := "BTC", dir := "Close Long", sz := 1, px := 60000 }] },
         { addr := "0xb",
           fills := [{ coin := "BTC", dir := "Open Long", sz := 1, px := 60000 }] }]
        { closeNotional := 50000, buildNotional := 50000,
          minClosers := 1, minBuilders := 1 } =
      some { coin := "BTC" ++ "-PERP", side := "long",
             closers := { walletCount := 1, notional := 60000, top := [("0xa", 60000)] },
             builders := { walletCount := 1, notional := 60000, top := [("0xb", 60000)] } } ∧
    ∀ a ∈ ({ coin := "BTC" ++ "-PERP", side := "long",
             closers := { walletCount := 1, notional := 60000, top := [("0xa", 60000)] },
             builders := { walletCount := 1, notional := 60000, top := [("0xb", 60000)] } } : DivResult).closers.top.map (·.1),
      a ∉ ({ coin := "BTC" ++ "-PERP", side := "long",
             closers := { walletCount := 1, notional := 60000, top := [("0xa", 60000)] },
             builders := { walletCount := 1, notional := 60000, top := [("0xb", 60000)] } } : DivResult).builders.top.map (·.1) := by
  have hres : runDivergence
      [{ addr := "0xa",
         fills := [{ coin := "BTC", dir := "Close Long", sz := 1, px := 60000 }] },
       { addr := "0xb",
         fills := [{ coin := "BTC", dir := "Open Long", sz := 1, px := 60000 }] }]
      { closeNotional := 50000, buildNotional := 50000,
        minClosers := 1, minBuilders := 1 } =
      some { coin := "BTC" ++ "-PERP", side := "long",
             closers := { walletCount := 1, notional := 60000, top := [("0xa", 60000)] },
             builders := { walletCount := 1, notional := 60000, top := [("0xb", 60000)] } } := by
    norm_num [runDivergence, divBook, divStep, divScan, divQualifyingClosers,
      divQualifyingBuilders, mkDivSummary, upsertWith, truthyQ, jsSortWith,
      jsInsert, keyBefore, fmt2, List.filter_cons, List.filter_nil,
      show jsGet [("0xa", (60000 : ℚ))] "0xb" = none from rfl,
      show strStarts "Close Long" "Close" = true from rfl,
      show strStarts "Open Long" "Close" = false from rfl,
      show strStarts "Open Long" "Open" = true from rfl,
      show strHas "Close Long" "Long" = true from rfl,
      show strHas "Open Long" "Long" = true from rfl]
  exact ⟨by norm_num, hres, C6_divergence_disjoint _ _ _ (by norm_num) hres⟩
